import Mathlib

set_option maxRecDepth 100000

/-!
Verification of the checksum preimage recovery engine of the `quas`
repository: the PNG IHDR CRC repair path (`src/png_crc.rs`) and the ZIP
CRC dictionary search path (`src/zip_crc.rs`).

Bytes are modelled as natural numbers (values < 256 in well-formed data),
buffers as `List Nat`, and the `crc32fast` hasher as the standard CRC-32
register fold (polynomial 0xEDB88320, reflected, initial value 0xFFFFFFFF,
final complement), which is the documented semantics of that crate.
-/

namespace Quas

/-- One shift-and-conditionally-xor round of the reflected CRC-32 register. -/
def crc32Round (r : Nat) : Nat :=
  if r % 2 = 1 then (r / 2) ^^^ 0xEDB88320 else r / 2

/-- Process one input byte into the CRC-32 register. -/
def crc32UpdateByte (r : Nat) (b : Nat) : Nat :=
  crc32Round (crc32Round (crc32Round (crc32Round
    (crc32Round (crc32Round (crc32Round (crc32Round (r ^^^ b))))))))

/-- The state of a `crc32fast::Hasher`: the 32-bit CRC register. -/
structure Hasher where
  state : Nat
deriving DecidableEq, Repr

/-- Rust `Hasher::new()`: register initialised to 0xFFFFFFFF. -/
def Hasher.new : Hasher := ⟨0xFFFFFFFF⟩

/-- Rust `Hasher::update(data)`: fold the bytes into the register. -/
def Hasher.update (h : Hasher) (data : List Nat) : Hasher :=
  ⟨data.foldl crc32UpdateByte h.state⟩

/-- Rust `Hasher::finalize()`: complement of the register. -/
def Hasher.finalize (h : Hasher) : Nat :=
  h.state ^^^ 0xFFFFFFFF

/-- Rust `crc32fast::hash(bytes)`: the standard one-shot CRC-32 of a byte
sequence (initial value 0xFFFFFFFF, final complement). -/
def crc32 (bytes : List Nat) : Nat :=
  (Hasher.new.update bytes).finalize

/-- The incremental checksum contract of the engines: feed an ordered
sequence of byte segments into one hasher, then finalize
(`ChecksumCodec.compute`). -/
def computeSegments (segments : List (List Nat)) : Nat :=
  (segments.foldl Hasher.update Hasher.new).finalize

/-! ## PNG side: `src/png_crc.rs` -/

/-- Which of the two IHDR dimension fields a racer worker assumes corrupted. -/
inductive WoH where
  | Width
  | Height
deriving DecidableEq, Repr

/-- The parsed IHDR region of a PNG buffer (`struct IHDR`). -/
structure IHDR where
  header : List Nat
  width : List Nat
  height : List Nat
  others : List Nat
deriving DecidableEq, Repr

/-- Rust slice `data[a..b]`: defined only when `b ≤ data.length`
(an out-of-range slice panics, modelled as `none`). -/
def sliceRange (data : List Nat) (a b : Nat) : Option (List Nat) :=
  if b ≤ data.length then some ((data.drop a).take (b - a)) else none

/-- Rust `u32::from_be_bytes` on a 4-byte big-endian list. -/
def fromBE4 (bytes : List Nat) : Nat :=
  bytes.foldl (fun acc b => acc * 256 + b) 0

/-- Rust `u32::to_be_bytes`. -/
def toBE4 (v : Nat) : List Nat :=
  [v / 2 ^ 24 % 256, v / 2 ^ 16 % 256, v / 2 ^ 8 % 256, v % 256]

/-- Rust `IHDR::parse_crc`: the stored CRC at bytes 29..33, big-endian.
`none` models the index panic on a short buffer. -/
def IHDR.parse_crc (data : List Nat) : Option Nat :=
  (sliceRange data 29 33).map fromBE4

/-- Rust `IHDR::from`: slice the fixed offsets 12..16 (tag), 16..20 (width),
20..24 (height), 24..29 (aux) and the stored CRC at 29..33. Any
out-of-range slice (buffer shorter than 33 bytes) models the panic as
`none`. No validation of the tag bytes is performed. -/
def IHDR.from (data : List Nat) : Option (IHDR × Nat) := do
  let header ← sliceRange data 12 16
  let width ← sliceRange data 16 20
  let height ← sliceRange data 20 24
  let others ← sliceRange data 24 29
  let crc ← IHDR.parse_crc data
  pure (⟨header, width, height, others⟩, crc)

/-- Rust `IHDR::crc`: hash the tag, then width/height with an optional override
of one of them, then the aux bytes, and finalize. -/
def IHDR.crc (self : IHDR) (woh : Option (WoH × List Nat)) : Nat :=
  let h := Hasher.new.update self.header
  let h :=
    match woh with
    | some (WoH.Width, width) => (h.update width).update self.height
    | some (WoH.Height, height) => (h.update self.width).update height
    | none => (h.update self.width).update self.height
  ((h.update self.others).finalize)

/-- One racer worker (`IHDR::brute`), fuel-indexed. The worker walks
candidates `i, i+1, ...`; at each iteration it computes the CRC with the
candidate substituted and then tests `finished.load() || computed ==
expected` in one conditional; on exit it stores `true` into the shared
flag and returns `(woh, i)`. `cancel i` is the value the worker observes
in `finished` at iteration `i`; the returned `Bool` is the value stored
into `finished` on exit. `none` means the fuel ran out. -/
def bruteAux (self : IHDR) (woh : WoH) (expected : Nat) (cancel : Nat → Bool) :
    Nat → Nat → Option (WoH × Nat × Bool)
  | 0, _ => none
  | fuel + 1, i =>
    if cancel i || decide (self.crc (some (woh, toBE4 i)) = expected) then
      some (woh, i, true)
    else
      bruteAux self woh expected cancel fuel (i + 1)

/-- Rust `IHDR::brute`: run the worker over the `u32` candidate space
`0 .. 2^32 - 1` in increasing order. -/
def IHDR.brute (self : IHDR) (woh : WoH) (expected : Nat) (cancel : Nat → Bool) :
    Option (WoH × Nat × Bool) :=
  bruteAux self woh expected cancel (2 ^ 32) 0

/-- Overwrite `data[off .. off + bytes.length]` with `bytes`
(`copy_from_slice` on a slice of `data`). -/
def writeRange (data : List Nat) (off : Nat) (bytes : List Nat) : List Nat :=
  data.take off ++ bytes ++ data.drop (off + bytes.length)

/-- The buffer patch step of `PngCrc::execute`: write the winning value
big-endian into bytes 16..20 (width) or 20..24 (height). -/
def patchField (data : List Nat) (woh : WoH) (v : Nat) : List Nat :=
  match woh with
  | WoH.Width => writeRange data 16 (toBE4 v)
  | WoH.Height => writeRange data 20 (toBE4 v)

/-- The in-memory core of `PngCrc::execute` after the file read: parse the
IHDR region (panic on a short buffer modelled as `none`), verify the as-is
CRC against the stored one, and on mismatch patch the buffer with the
race's winning pair. The race outcome (which worker's `(woh, value)` the
coordinator receives) is a parameter; the returned `Bool` records whether
the brute-force racer was invoked. -/
def pngExecute (data : List Nat) (race : IHDR → Nat → WoH × Nat) :
    Option (List Nat × Bool) :=
  (IHDR.from data).map fun p =>
    let computed := p.1.crc none
    if computed = p.2 then (data, false)
    else
      let r := race p.1 p.2
      (patchField data r.1 r.2, true)

/-! ## ZIP side: `src/zip_crc.rs` -/

/-- The UTF-8 encoding of a character, as Rust's `String` stores it. -/
def charBytes (c : Char) : List Nat :=
  let n := c.toNat
  if n < 0x80 then [n]
  else if n < 0x800 then
    [0xC0 + n / 64, 0x80 + n % 64]
  else if n < 0x10000 then
    [0xE0 + n / 4096, 0x80 + n / 64 % 64, 0x80 + n % 64]
  else
    [0xF0 + n / 262144, 0x80 + n / 4096 % 64, 0x80 + n / 64 % 64, 0x80 + n % 64]

/-- The UTF-8 bytes of a string, modelled as a list of characters
(`str::as_bytes`). -/
def strBytes (s : List Char) : List Nat :=
  (s.map charBytes).flatten

/-- Rust `curr.as_bytes().len()`: the byte length of a string. -/
def byteLen (s : List Char) : Nat :=
  (strBytes s).length

/-- The candidate strings tested by one `ZipCrc::brute` worker, in test
order. The worker's explicit cursor-stack loop is the depth-first
traversal: a prefix strictly longer (in bytes) than `size` is abandoned
without a test, a prefix of exactly `size` bytes is tested and not
extended, and a shorter prefix is extended by each alphabet character in
alphabet order. -/
def bruteTests (alphabet : List Char) (size : Nat) (curr : List Char) :
    List (List Char) :=
  if size < byteLen curr then []
  else if byteLen curr = size then [curr]
  else (alphabet.map fun c => bruteTests alphabet size (curr ++ [c])).flatten
termination_by size - byteLen curr
decreasing_by
  have h1 : 0 < (charBytes c).length := by
    simp only [charBytes]
    split_ifs <;> simp
  have h2 : byteLen (curr ++ [c]) = byteLen curr + (charBytes c).length := by
    simp [byteLen, strBytes]
  omega

/-- A bucket mapping (`SolutionMap`): checksum key, label (first-seen
entry name), and the ordered match list, as an association list. The
underlying `HashMap`'s iteration order is the list order. -/
abbrev SMap : Type := List (Nat × String × List (List Char))

/-- Append candidate `s` to the first bucket keyed by `crc`, if any
(the `get` on the unique key of a `HashMap`, then `push`). -/
def pushHitAux (s : List Char) (crc : Nat) : SMap → SMap
  | [] => []
  | e :: rest =>
    if e.1 = crc then (e.1, e.2.1, e.2.2 ++ [s]) :: rest
    else e :: pushHitAux s crc rest

/-- One tested candidate's effect on the bucket mapping: compute its
CRC-32, and if a bucket with that key exists, append the candidate to that
bucket's match list (`ctx.crc2pts.get(&crc)` followed by `push`). -/
def pushHit (m : SMap) (s : List Char) : SMap :=
  pushHitAux s (crc32 (strBytes s)) m

/-- One whole `ZipCrc::brute` worker for first character `first`: test
every candidate in DFS order against the bucket mapping. -/
def zipBrute (alphabet : List Char) (size : Nat) (first : Char) (m : SMap) : SMap :=
  (bruteTests alphabet size [first]).foldl pushHit m

/-- One archive entry's stored metadata: `(name, crc32, uncompressedSize)`. -/
abbrev ZEntry : Type := String × Nat × Nat

/-- One step of `ZipCrc::init_buckets`: skip entries whose stored size is
not the requested one; otherwise `entry(crc).or_insert_with((name, []))`:
a new bucket keyed by the crc and labelled by this entry's name, only when
the key is not yet present. -/
def bucketStep (size : Nat) (m : SMap) (e : ZEntry) : SMap :=
  if e.2.2 = size then
    if m.any (fun b => b.1 = e.2.1) then m
    else m ++ [(e.2.1, e.1, ([] : List (List Char)))]
  else m

/-- Rust `ZipCrc::init_buckets`: fold every entry's stored metadata. -/
def init_buckets (entries : List ZEntry) (size : Nat) : SMap :=
  entries.foldl (bucketStep size) []

/-- A bucket re-keyed by its label, as `ZipCrc::execute` re-keys
`crc2pts` into a `BTreeMap` over names: `(name, crc, matches)`. -/
abbrev BEntry : Type := String × Nat × List (List Char)

/-- Rust `BTreeMap` insertion over the label key: keep the list sorted by
label; an equal key replaces the stored value. -/
def btInsert : List BEntry → BEntry → List BEntry
  | [], e => [e]
  | x :: xs, e =>
    if e.1 < x.1 then e :: x :: xs
    else if e.1 = x.1 then e :: xs
    else x :: btInsert xs e

/-- The label-keyed `BTreeMap` built by `ZipCrc::execute` from the bucket
mapping, inserting in the mapping's iteration order. -/
def assembleSorted (m : SMap) : List BEntry :=
  (m.map fun e => (e.2.1, e.1, e.2.2)).foldl btInsert []

/-- The final recovered text of `ZipCrc::execute`: concatenate, in label
order, each bucket's match list (`flat_map` then `collect::<String>`). -/
def assemble (m : SMap) : List Char :=
  (((assembleSorted m).map fun e => e.2.2).flatten).flatten

/-- The byte offset of a dimension field inside the PNG buffer. -/
def fieldOff : WoH → Nat
  | WoH.Width => 16
  | WoH.Height => 20

/-- The dimension field the racer did not win on. -/
def otherField : WoH → WoH
  | WoH.Width => WoH.Height
  | WoH.Height => WoH.Width

/-- Specification device for `init_buckets`: the buckets created by the
remaining entries, given the set of checksum keys already present. -/
def newBuckets (size : Nat) : List Nat → List ZEntry → SMap
  | _, [] => []
  | seen, e :: rest =>
    if e.2.2 = size ∧ e.2.1 ∉ seen then
      (e.2.1, e.1, []) :: newBuckets size (e.2.1 :: seen) rest
    else newBuckets size seen rest

/-- The 33-byte IHDR test vector of `png_crc.rs` (`test_ihdr_crc`): its
stored CRC 0x93cf1eca matches its fields. -/
def pngGood : List Nat :=
  [0x89, 0x50, 0x4e, 0x47, 0x0d, 0x0a, 0x1a, 0x0a, 0x00, 0x00, 0x00, 0x0d,
   0x49, 0x48, 0x44, 0x52, 0x00, 0x00, 0x01, 0x35, 0x00, 0x00, 0x04, 0x24,
   0x08, 0x02, 0x00, 0x00, 0x00, 0x93, 0xcf, 0x1e, 0xca]

/-- The tampered vector of `test_crc_brute_height`: height bytes replaced
by 0x000000e8, so only height 0x424 restores the stored CRC. -/
def pngBadHeight : List Nat :=
  [0x89, 0x50, 0x4e, 0x47, 0x0d, 0x0a, 0x1a, 0x0a, 0x00, 0x00, 0x00, 0x0d,
   0x49, 0x48, 0x44, 0x52, 0x00, 0x00, 0x01, 0x35, 0x00, 0x00, 0x00, 0xe8,
   0x08, 0x02, 0x00, 0x00, 0x00, 0x93, 0xcf, 0x1e, 0xca]

/-- The parsed record of `pngGood` and `pngBadHeight` up to the height
bytes. -/
def ihdrGood : IHDR :=
  ⟨[0x49, 0x48, 0x44, 0x52], [0x00, 0x00, 0x01, 0x35],
   [0x00, 0x00, 0x04, 0x24], [0x08, 0x02, 0x00, 0x00, 0x00]⟩

/-- The parsed record of the tampered buffer. -/
def ihdrBadHeight : IHDR :=
  ⟨[0x49, 0x48, 0x44, 0x52], [0x00, 0x00, 0x01, 0x35],
   [0x00, 0x00, 0x00, 0xe8], [0x08, 0x02, 0x00, 0x00, 0x00]⟩

/-! ## Checksum composition lemmas -/

theorem Hasher.update_nil (h : Hasher) : h.update [] = h := by
  cases h
  rfl

theorem Hasher.update_append (h : Hasher) (a b : List Nat) :
    h.update (a ++ b) = (h.update a).update b := by
  simp [Hasher.update, List.foldl_append]

theorem foldl_update_eq (segments : List (List Nat)) (h : Hasher) :
    segments.foldl Hasher.update h = h.update segments.flatten := by
  induction segments generalizing h with
  | nil => simp [Hasher.update_nil]
  | cons seg rest ih => simp [ih, Hasher.update_append]

/-- Helper: overriding the width with the record's own width bytes is the
as-is checksum. -/
theorem IHDR.crc_width_self (self : IHDR) :
    self.crc (some (WoH.Width, self.width)) = self.crc none := rfl

/-- Helper: overriding the height with the record's own height bytes is the
as-is checksum. -/
theorem IHDR.crc_height_self (self : IHDR) :
    self.crc (some (WoH.Height, self.height)) = self.crc none := rfl

/-- Helper: the full characterization of `IHDR::from`: on a buffer of at
least 33 bytes it succeeds with the fields sliced from the fixed offsets
and the big-endian stored CRC; on a shorter buffer it panics (modelled as
`none`). The tag bytes are never compared against anything. -/
theorem IHDR.from_eq (data : List Nat) :
    IHDR.from data =
      if 33 ≤ data.length then
        some (⟨(data.drop 12).take 4, (data.drop 16).take 4,
               (data.drop 20).take 4, (data.drop 24).take 5⟩,
              fromBE4 ((data.drop 29).take 4))
      else none := by
  by_cases h : 33 ≤ data.length
  · simp only [IHDR.from, IHDR.parse_crc, sliceRange, if_pos h]
    have h16 : 16 ≤ data.length := by omega
    have h20 : 20 ≤ data.length := by omega
    have h24 : 24 ≤ data.length := by omega
    have h29 : 29 ≤ data.length := by omega
    simp [h16, h20, h24, h29, h, Option.bind]
  · have h29 : ¬ 33 ≤ data.length := h
    simp only [IHDR.from, IHDR.parse_crc, sliceRange, if_neg h]
    by_cases h16 : 16 ≤ data.length <;> by_cases h20 : 20 ≤ data.length <;>
      by_cases h24 : 24 ≤ data.length <;> by_cases h29' : 29 ≤ data.length <;>
      simp [h16, h20, h24, h29', h, Option.bind]

/-- Sanity: the embedding reproduces the repo's `test_ihdr_from` and
`test_ihdr_crc` vectors. -/
theorem ihdr_test_vector :
    IHDR.from pngGood = some (ihdrGood, 0x93cf1eca) ∧
    ihdrGood.crc none = 0x93cf1eca := by
  constructor <;> decide

/-- C8: feeding an ordered sequence of byte segments incrementally into
the hasher (`ChecksumCodec.compute`, the `IHDR::crc` update pattern)
equals the standard CRC-32 — polynomial 0xEDB88320 reflected, initial
value 0xFFFFFFFF, final complement, which is what `crc32` folds — of the
concatenation of the segments; hence every partition of a byte sequence
into contiguous segments yields the checksum of the whole sequence. -/
theorem compute_segments_eq_crc32_flatten :
    ∀ segments : List (List Nat), computeSegments segments = crc32 segments.flatten := by
  intro segments
  simp [computeSegments, crc32, foldl_update_eq]

/-- C10: computing `IHDR::crc` with an override equal to the record's own
field value — `(Width, self.width)` or `(Height, self.height)` — is the
as-is (no-override) checksum of the record. -/
theorem crc_override_own_field :
    ∀ self : IHDR,
      self.crc (some (WoH.Width, self.width)) = self.crc none ∧
      self.crc (some (WoH.Height, self.height)) = self.crc none :=
  fun self => ⟨self.crc_width_self, self.crc_height_self⟩

/-- C4 counterexample: a 33-byte all-zero buffer whose tag bytes at offset
12 are not the IHDR tag `[0x49, 0x48, 0x44, 0x52]` is parsed successfully
by `IHDR::from` — the claim that parsing fails whenever the tag bytes are
not the IHDR header tag is false, because the code never inspects the tag
bytes. -/
theorem ihdr_from_wrong_tag_succeeds :
    (IHDR.from (List.replicate 33 0)).isSome = true ∧
    sliceRange (List.replicate 33 0) 12 16 ≠ some [0x49, 0x48, 0x44, 0x52] := by
  constructor <;> decide

/-- C4 amended: `IHDR::from` aborts (an index panic, modelled as `none`)
exactly when the buffer is shorter than 33 bytes; the tag bytes are never
validated, and on any buffer of at least 33 bytes it returns the record
sliced from the fixed offsets together with the stored big-endian
checksum from bytes 29..33. -/
theorem ihdr_from_characterization :
    ∀ data : List Nat,
      IHDR.from data =
        if 33 ≤ data.length then
          some (⟨(data.drop 12).take 4, (data.drop 16).take 4,
                 (data.drop 20).take 4, (data.drop 24).take 5⟩,
                fromBE4 ((data.drop 29).take 4))
        else none :=
  IHDR.from_eq

/-- C5: when the as-is checksum of the parsed record already equals the
stored checksum, `PngCrc::execute` returns the buffer unchanged (so the
width and height bytes are untouched), and the brute-force racer is never
invoked (the returned flag is `false`), whatever the racer would have
produced. -/
theorem png_noop (data : List Nat) (race : IHDR → Nat → WoH × Nat)
    (ihdr : IHDR) (expected : Nat)
    (hparse : IHDR.from data = some (ihdr, expected))
    (hok : ihdr.crc none = expected) :
    pngExecute data race = some (data, false) := by
  simp [pngExecute, hparse, hok]

/-- C5 witness: the repo's good test vector verifies as-is, and the
repair is a no-op on it. -/
theorem png_noop_witness :
    pngExecute pngGood (fun _ _ => (WoH.Width, 0)) = some (pngGood, false) :=
  png_noop pngGood (fun _ _ => (WoH.Width, 0)) ihdrGood 0x93cf1eca
    (by decide) (by decide)

/-! ## Buffer patch lemmas -/

theorem toBE4_length (v : Nat) : (toBE4 v).length = 4 := rfl

theorem patchField_eq (data : List Nat) (woh : WoH) (v : Nat) :
    patchField data woh v = writeRange data (fieldOff woh) (toBE4 v) := by
  cases woh <;> rfl

theorem writeRange_length (data bytes : List Nat) (off : Nat)
    (h : off + bytes.length ≤ data.length) :
    (writeRange data off bytes).length = data.length := by
  simp [writeRange]
  omega

theorem writeRange_getElem?_outside (data bytes : List Nat) (off i : Nat)
    (h : off + bytes.length ≤ data.length)
    (hi : i < off ∨ off + bytes.length ≤ i) :
    (writeRange data off bytes)[i]? = data[i]? := by
  have hoff : (data.take off).length = off := List.length_take_of_le (by omega)
  simp only [writeRange, List.getElem?_append, List.length_append, hoff,
    List.getElem?_take, List.getElem?_drop]
  rcases hi with hi | hi
  · rw [if_pos (by omega), if_pos (by omega), if_pos hi]
  · rw [if_neg (by omega)]
    congr 1
    omega

theorem writeRange_drop (data bytes : List Nat) (off : Nat)
    (h : off ≤ data.length) :
    (writeRange data off bytes).drop off = bytes ++ data.drop (off + bytes.length) := by
  rw [writeRange, List.append_assoc]
  exact List.drop_left' (List.length_take_of_le h)

theorem writeRange_slice_self (data bytes : List Nat) (off : Nat)
    (h : off ≤ data.length) :
    ((writeRange data off bytes).drop off).take bytes.length = bytes := by
  rw [writeRange_drop data bytes off h]
  exact List.take_left' rfl

theorem slice_congr (l₁ l₂ : List Nat) (a n : Nat)
    (h : ∀ i, a ≤ i → i < a + n → l₁[i]? = l₂[i]?) :
    (l₁.drop a).take n = (l₂.drop a).take n := by
  apply List.ext_getElem?
  intro i
  rw [List.getElem?_take, List.getElem?_take]
  split_ifs with hi
  · rw [List.getElem?_drop, List.getElem?_drop]
    exact h (a + i) (by omega) (by omega)
  · rfl

/-- C3: after a successful repair (the race hands the coordinator a pair
whose substituted checksum equals the stored one, and the as-is checksum
did not match), the returned buffer holds the winning 4-byte big-endian
value in the winning field, that field differs from the input, and every
other byte — the non-winning dimension field included — is byte-for-byte
unchanged. -/
theorem png_patch_exclusive (data : List Nat) (race : IHDR → Nat → WoH × Nat)
    (ihdr : IHDR) (expected : Nat) (woh : WoH) (v : Nat)
    (hparse : IHDR.from data = some (ihdr, expected))
    (hne : ihdr.crc none ≠ expected)
    (hrace : race ihdr expected = (woh, v))
    (hwin : ihdr.crc (some (woh, toBE4 v)) = expected) :
    ∃ out, pngExecute data race = some (out, true) ∧
      out.length = data.length ∧
      sliceRange out (fieldOff woh) (fieldOff woh + 4) = some (toBE4 v) ∧
      sliceRange out (fieldOff woh) (fieldOff woh + 4) ≠
        sliceRange data (fieldOff woh) (fieldOff woh + 4) ∧
      sliceRange out (fieldOff (otherField woh)) (fieldOff (otherField woh) + 4) =
        sliceRange data (fieldOff (otherField woh)) (fieldOff (otherField woh) + 4) ∧
      ∀ i, i < fieldOff woh ∨ fieldOff woh + 4 ≤ i → out[i]? = data[i]? := by
  have hlen : 33 ≤ data.length := by
    by_contra hc
    rw [IHDR.from_eq, if_neg hc] at hparse
    exact Option.noConfusion hparse
  rw [IHDR.from_eq, if_pos hlen, Option.some.injEq, Prod.mk.injEq] at hparse
  obtain ⟨hrec, hexp⟩ := hparse
  have hoff24 : fieldOff woh + 4 ≤ 24 := by cases woh <;> simp [fieldOff]
  have hother24 : fieldOff (otherField woh) + 4 ≤ 24 := by
    cases woh <;> simp [fieldOff, otherField]
  have hwrite : fieldOff woh + (toBE4 v).length ≤ data.length := by
    rw [toBE4_length]
    omega
  have houtlen : (writeRange data (fieldOff woh) (toBE4 v)).length = data.length :=
    writeRange_length data (toBE4 v) (fieldOff woh) hwrite
  have hsub4 : fieldOff woh + 4 - fieldOff woh = 4 := by omega
  have hosub4 : fieldOff (otherField woh) + 4 - fieldOff (otherField woh) = 4 := by omega
  have hself : ((writeRange data (fieldOff woh) (toBE4 v)).drop (fieldOff woh)).take 4
      = toBE4 v := by
    have := writeRange_slice_self data (toBE4 v) (fieldOff woh) (by omega)
    rwa [toBE4_length] at this
  refine ⟨patchField data woh v, ?_, ?_, ?_, ?_, ?_, ?_⟩
  · simp [pngExecute, IHDR.from_eq, if_pos hlen, hexp, hrec, hne, hrace]
  · rw [patchField_eq]
    exact houtlen
  · rw [patchField_eq, sliceRange, if_pos (show _ ≤ _ by rw [houtlen]; omega)]
    rw [hsub4, hself]
  · rw [patchField_eq, sliceRange, sliceRange]
    rw [if_pos (show _ ≤ _ by rw [houtlen]; omega),
        if_pos (by omega : fieldOff woh + 4 ≤ data.length)]
    rw [hsub4, hself]
    intro hc
    rw [Option.some.injEq] at hc
    cases woh
    · have hwidth : (data.drop 16).take 4 = ihdr.width := by rw [← hrec]
      rw [show fieldOff WoH.Width = 16 from rfl, hwidth] at hc
      rw [hc, ihdr.crc_width_self] at hwin
      exact hne hwin
    · have hheight : (data.drop 20).take 4 = ihdr.height := by rw [← hrec]
      rw [show fieldOff WoH.Height = 20 from rfl, hheight] at hc
      rw [hc, ihdr.crc_height_self] at hwin
      exact hne hwin
  · rw [patchField_eq, sliceRange, sliceRange]
    rw [if_pos (show _ ≤ _ by rw [houtlen]; omega),
        if_pos (by omega : fieldOff (otherField woh) + 4 ≤ data.length)]
    rw [hosub4]
    congr 1
    apply slice_congr
    intro i hi1 hi2
    apply writeRange_getElem?_outside data (toBE4 v) (fieldOff woh) i hwrite
    rw [toBE4_length]
    cases woh <;> simp [fieldOff, otherField] at hi1 hi2 ⊢ <;> omega
  · intro i hi
    rw [patchField_eq]
    apply writeRange_getElem?_outside data (toBE4 v) (fieldOff woh) i hwrite
    rw [toBE4_length]
    exact hi

/-- C3 witness: the repo's tampered-height vector, repaired with the
winning pair `(Height, 0x424)`. -/
theorem png_patch_witness :
    ∃ out, pngExecute pngBadHeight (fun _ _ => (WoH.Height, 0x424)) = some (out, true) ∧
      out.length = pngBadHeight.length ∧
      sliceRange out (fieldOff WoH.Height) (fieldOff WoH.Height + 4) = some (toBE4 0x424) ∧
      sliceRange out (fieldOff WoH.Height) (fieldOff WoH.Height + 4) ≠
        sliceRange pngBadHeight (fieldOff WoH.Height) (fieldOff WoH.Height + 4) ∧
      sliceRange out (fieldOff (otherField WoH.Height)) (fieldOff (otherField WoH.Height) + 4) =
        sliceRange pngBadHeight (fieldOff (otherField WoH.Height))
          (fieldOff (otherField WoH.Height) + 4) ∧
      ∀ i, i < fieldOff WoH.Height ∨ fieldOff WoH.Height + 4 ≤ i →
        out[i]? = pngBadHeight[i]? :=
  png_patch_exclusive pngBadHeight (fun _ _ => (WoH.Height, 0x424))
    ihdrBadHeight 0x93cf1eca WoH.Height 0x424
    (by decide) (by decide) rfl (by decide)

/-! ## Racer worker lemmas -/

theorem bruteAux_eq_some (self : IHDR) (woh : WoH) (expected : Nat)
    (cancel : Nat → Bool) :
    ∀ (fuel start i : Nat), start ≤ i → i < start + fuel →
      (cancel i || decide (self.crc (some (woh, toBE4 i)) = expected)) = true →
      (∀ k, start ≤ k → k < i →
        (cancel k || decide (self.crc (some (woh, toBE4 k)) = expected)) = false) →
      bruteAux self woh expected cancel fuel start = some (woh, i, true) := by
  intro fuel
  induction fuel with
  | zero =>
    intro start i h1 h2 h3 h4
    omega
  | succ fuel ih =>
    intro start i h1 h2 h3 h4
    by_cases hs : (cancel start || decide (self.crc (some (woh, toBE4 start)) = expected)) = true
    · rcases Nat.lt_or_ge start i with hlt | hge
      · rw [h4 start (le_refl start) hlt] at hs
        exact absurd hs (by simp)
      · have heq : start = i := by omega
        subst heq
        simp only [bruteAux, if_pos hs]
    · have hlt : start < i := by
        rcases Nat.lt_or_ge start i with hlt | hge
        · exact hlt
        · have heq : start = i := by omega
          subst heq
          exact absurd h3 hs
      simp only [bruteAux, if_neg hs]
      exact ih (start + 1) i (by omega) (by omega) h3
        (fun k hk1 hk2 => h4 k (by omega) hk2)

/-- C2: for any observed cancellation-flag sequence, if some candidate
`i < 2^32` would stop the worker (the flag is observed set there, or the
checksum with that candidate substituted matches), then `IHDR::brute`
stops at the first such candidate `j`, walking candidates from 0 upward
encoded as 4-byte big-endian patterns: it returns `(woh, j)` having stored
`true` into the shared flag, every earlier candidate was neither cancelled
nor a match, and if the exit was not due to the cancellation flag then the
returned value's substituted checksum equals the stored checksum. -/
theorem ihdr_brute_spec (self : IHDR) (woh : WoH) (expected : Nat)
    (cancel : Nat → Bool) (i : Nat) (hi : i < 2 ^ 32)
    (hhit : cancel i = true ∨ self.crc (some (woh, toBE4 i)) = expected) :
    ∃ j, j ≤ i ∧
      self.brute woh expected cancel = some (woh, j, true) ∧
      (∀ k, k < j → cancel k = false ∧ self.crc (some (woh, toBE4 k)) ≠ expected) ∧
      (cancel j = false → self.crc (some (woh, toBE4 j)) = expected) := by
  have hP : ∃ n, (cancel n || decide (self.crc (some (woh, toBE4 n)) = expected)) = true := by
    refine ⟨i, ?_⟩
    rcases hhit with h | h <;> simp [h]
  have hfind_le : Nat.find hP ≤ i := by
    apply Nat.find_min' hP
    rcases hhit with h | h <;> simp [h]
  refine ⟨Nat.find hP, hfind_le, ?_, ?_, ?_⟩
  · exact bruteAux_eq_some self woh expected cancel (2 ^ 32) 0 (Nat.find hP)
      (Nat.zero_le _) (by omega)
      (Nat.find_spec hP)
      (fun k _ hk => by
        have := Nat.find_min hP hk
        simpa using this)
  · intro k hk
    have := Nat.find_min hP hk
    simpa using this
  · intro hcj
    have := Nat.find_spec hP
    rw [hcj] at this
    simpa using this

/-- C2 witness: with the flag never set and the stored checksum chosen as
the substituted checksum at candidate 0, the worker stops at 0 with a
matching pair. -/
theorem ihdr_brute_witness :
    ∃ j, j ≤ 0 ∧
      ihdrGood.brute WoH.Height 4223499769 (fun _ => false) = some (WoH.Height, j, true) ∧
      (∀ k, k < j → (fun _ => false : Nat → Bool) k = false ∧
        ihdrGood.crc (some (WoH.Height, toBE4 k)) ≠ 4223499769) ∧
      ((fun _ => false : Nat → Bool) j = false →
        ihdrGood.crc (some (WoH.Height, toBE4 j)) = 4223499769) :=
  ihdr_brute_spec ihdrGood WoH.Height 4223499769 (fun _ => false) 0
    (by decide) (Or.inr (by decide))

/-! ## Search enumeration lemmas -/

theorem charBytes_length_pos (c : Char) : 0 < (charBytes c).length := by
  simp only [charBytes]
  split_ifs <;> simp

theorem byteLen_append (s t : List Char) :
    byteLen (s ++ t) = byteLen s + byteLen t := by
  simp [byteLen, strBytes]

theorem byteLen_cons_pos (c : Char) (s : List Char) : 0 < byteLen (c :: s) := by
  have := charBytes_length_pos c
  simp [byteLen, strBytes]
  omega

theorem byteLen_eq_zero (s : List Char) (h : byteLen s = 0) : s = [] := by
  cases s with
  | nil => rfl
  | cons c t => exact absurd h (by have := byteLen_cons_pos c t; omega)

/-- The DFS of a worker tests exactly the extensions of its prefix by
alphabet characters whose total byte length is the target size. -/
theorem mem_bruteTests (alphabet : List Char) (size : Nat) (curr s : List Char) :
    s ∈ bruteTests alphabet size curr ↔
      ∃ rest, s = curr ++ rest ∧ (∀ c ∈ rest, c ∈ alphabet) ∧ byteLen s = size := by
  induction curr using bruteTests.induct alphabet size with
  | case1 x h =>
    rw [bruteTests, if_pos h]
    constructor
    · intro hs
      exact absurd hs (List.not_mem_nil s)
    · rintro ⟨rest, rfl, -, hlen⟩
      rw [byteLen_append] at hlen
      omega
  | case2 x h1 h2 =>
    rw [bruteTests, if_neg h1, if_pos h2]
    constructor
    · intro hs
      rw [List.mem_singleton] at hs
      subst hs
      exact ⟨[], by simp, by simp, h2⟩
    · rintro ⟨rest, rfl, -, hlen⟩
      rw [byteLen_append] at hlen
      have : rest = [] := byteLen_eq_zero rest (by omega)
      subst this
      simp
  | case3 x h1 h2 ih =>
    rw [bruteTests, if_neg h1, if_neg h2]
    rw [List.mem_flatten]
    constructor
    · rintro ⟨l, hl, hs⟩
      rw [List.mem_map] at hl
      obtain ⟨c, hc, rfl⟩ := hl
      rw [ih c] at hs
      obtain ⟨rest, rfl, hsub, hlen⟩ := hs
      refine ⟨c :: rest, by simp, ?_, hlen⟩
      intro d hd
      rcases List.mem_cons.mp hd with rfl | hd
      · exact hc
      · exact hsub d hd
    · rintro ⟨rest, rfl, hsub, hlen⟩
      cases rest with
      | nil =>
        rw [List.append_nil] at hlen
        omega
      | cons c rest' =>
        refine ⟨bruteTests alphabet size (x ++ [c]),
          List.mem_map.mpr ⟨c, hsub c (by simp), rfl⟩, ?_⟩
        rw [ih c]
        exact ⟨rest', by simp, fun d hd => hsub d (by simp [hd]), hlen⟩

/-- With a duplicate-free alphabet the DFS tests each candidate at most
once. -/
theorem nodup_bruteTests (alphabet : List Char) (size : Nat)
    (hA : alphabet.Nodup) (curr : List Char) :
    (bruteTests alphabet size curr).Nodup := by
  induction curr using bruteTests.induct alphabet size with
  | case1 x h =>
    rw [bruteTests, if_pos h]
    exact List.nodup_nil
  | case2 x h1 h2 =>
    rw [bruteTests, if_neg h1, if_pos h2]
    simp
  | case3 x h1 h2 ih =>
    rw [bruteTests, if_neg h1, if_neg h2]
    rw [List.nodup_flatten]
    constructor
    · intro l hl
      rw [List.mem_map] at hl
      obtain ⟨c, -, rfl⟩ := hl
      exact ih c
    · rw [List.pairwise_map]
      refine List.Pairwise.imp ?_ hA
      intro a b hab s hsa hsb
      rw [mem_bruteTests] at hsa hsb
      obtain ⟨r1, e1, -, -⟩ := hsa
      obtain ⟨r2, e2, -, -⟩ := hsb
      apply hab
      have heq : x ++ [a] ++ r1 = x ++ [b] ++ r2 := by rw [← e1, ← e2]
      rw [List.append_assoc, List.append_assoc] at heq
      have h2 := List.append_cancel_left heq
      simp only [List.cons_append, List.nil_append, List.cons.injEq] at h2
      exact h2.1

theorem pushHitAux_keys (s : List Char) (k : Nat) (m : SMap) :
    (pushHitAux s k m).map Prod.fst = m.map Prod.fst := by
  induction m with
  | nil => rfl
  | cons e rest ih =>
    rw [pushHitAux]
    by_cases he : e.1 = k
    · rw [if_pos he]
      simp
    · rw [if_neg he]
      simp [ih]

/-- With duplicate-free keys, appending to the first bucket with the
matching key is appending to the unique bucket with that key. -/
theorem pushHitAux_eq (s : List Char) (k : Nat) (m : SMap)
    (hk : (m.map Prod.fst).Nodup) :
    pushHitAux s k m =
      m.map (fun e => if e.1 = k then (e.1, e.2.1, e.2.2 ++ [s]) else e) := by
  induction m with
  | nil => rfl
  | cons e rest ih =>
    rw [List.map_cons, List.nodup_cons] at hk
    rw [pushHitAux, List.map_cons]
    by_cases he : e.1 = k
    · rw [if_pos he, if_pos he]
      have hrest : ∀ x ∈ rest, (if x.1 = k then (x.1, x.2.1, x.2.2 ++ [s]) else x) = x := by
        intro x hx
        rw [if_neg]
        intro hxk
        exact hk.1 (by rw [he, ← hxk]; exact List.mem_map.mpr ⟨x, hx, rfl⟩)
      rw [List.map_congr_left hrest, List.map_id']
    · rw [if_neg he, if_neg he, ih hk.2]

theorem foldl_pushHit (ts : List (List Char)) (m : SMap)
    (hk : (m.map Prod.fst).Nodup) :
    ts.foldl pushHit m =
      m.map (fun e => (e.1, e.2.1,
        e.2.2 ++ ts.filter (fun s => crc32 (strBytes s) == e.1))) := by
  induction ts generalizing m with
  | nil =>
    simp
  | cons s ts ih =>
    rw [List.foldl_cons]
    have hkeys : ((pushHit m s).map Prod.fst).Nodup := by
      rw [pushHit, pushHitAux_keys]
      exact hk
    rw [ih (pushHit m s) hkeys, pushHit, pushHitAux_eq s _ m hk, List.map_map]
    apply List.map_congr_left
    intro e he
    by_cases hek : e.1 = crc32 (strBytes s)
    · have hbeq : (crc32 (strBytes s) == e.1) = true := by simp [hek]
      simp only [Function.comp_apply, if_pos hek, List.filter_cons, hbeq, if_pos]
      simp [List.append_assoc]
    · have hbeq : ¬ (crc32 (strBytes s) == e.1) = true := by simp; exact fun hc => hek hc.symm
      simp only [Function.comp_apply, if_neg hek, List.filter_cons]
      rw [if_neg hbeq]

/-- C1: for every duplicate-free alphabet, positive target size, bucket
mapping with duplicate-free checksum keys and first character `c`: the
worker tests exactly the strings (of byte length — a Rust string's `len` —
equal to `targetLength`) over the alphabet beginning with `c`, each
exactly once; it appends a candidate to a bucket exactly when the
candidate's CRC-32 equals that bucket's key (each bucket's match list
grows by precisely the tested candidates whose CRC-32 is its key, in test
order); hence every appended string has byte length `targetLength` and
checksum equal to its bucket's key. -/
theorem zip_worker_spec (alphabet : List Char) (size : Nat) (c : Char) (m : SMap)
    (hA : alphabet.Nodup) (hpos : 0 < size) (hk : (m.map Prod.fst).Nodup) :
    (∀ s, s ∈ bruteTests alphabet size [c] ↔
      ∃ rest, s = c :: rest ∧ (∀ d ∈ rest, d ∈ alphabet) ∧ byteLen s = size) ∧
    (bruteTests alphabet size [c]).Nodup ∧
    zipBrute alphabet size c m =
      m.map (fun e => (e.1, e.2.1,
        e.2.2 ++ (bruteTests alphabet size [c]).filter
          (fun s => crc32 (strBytes s) == e.1))) ∧
    (∀ e ∈ m, ∀ s ∈ (bruteTests alphabet size [c]).filter
        (fun s => crc32 (strBytes s) == e.1),
      byteLen s = size ∧ crc32 (strBytes s) = e.1) := by
  refine ⟨?_, nodup_bruteTests alphabet size hA [c], foldl_pushHit _ m hk, ?_⟩
  · intro s
    rw [mem_bruteTests]
    constructor
    · rintro ⟨rest, rfl, hsub, hlen⟩
      exact ⟨rest, rfl, hsub, hlen⟩
    · rintro ⟨rest, rfl, hsub, hlen⟩
      exact ⟨rest, rfl, hsub, hlen⟩
  · intro e he s hs
    rw [List.mem_filter] at hs
    obtain ⟨hmem, hcrc⟩ := hs
    rw [mem_bruteTests] at hmem
    obtain ⟨rest, rfl, -, hlen⟩ := hmem
    exact ⟨hlen, by simpa using hcrc⟩

/-- C1 witness: a two-letter alphabet, size 2, one bucket keyed by the
checksum of "ab". -/
theorem zip_worker_witness :
    (∀ s, s ∈ bruteTests ['a', 'b'] 2 ['a'] ↔
      ∃ rest, s = 'a' :: rest ∧ (∀ d ∈ rest, d ∈ ['a', 'b']) ∧ byteLen s = 2) ∧
    (bruteTests ['a', 'b'] 2 ['a']).Nodup ∧
    zipBrute ['a', 'b'] 2 'a' [(crc32 (strBytes ['a', 'b']), "demo.txt", [])] =
      [(crc32 (strBytes ['a', 'b']), "demo.txt", [])].map (fun e => (e.1, e.2.1,
        e.2.2 ++ (bruteTests ['a', 'b'] 2 ['a']).filter
          (fun s => crc32 (strBytes s) == e.1))) ∧
    (∀ e ∈ [(crc32 (strBytes ['a', 'b']), "demo.txt",
        ([] : List (List Char)))],
      ∀ s ∈ (bruteTests ['a', 'b'] 2 ['a']).filter
        (fun s => crc32 (strBytes s) == e.1),
      byteLen s = 2 ∧ crc32 (strBytes s) = e.1) :=
  zip_worker_spec ['a', 'b'] 2 'a' [(crc32 (strBytes ['a', 'b']), "demo.txt", [])]
    (by decide) (by decide) (by decide)

/-- C9 counterexample: with target size 0, the worker for first character
`a` performs no checksum test at all — in particular it does not perform
the single empty-string test the claim asserts (its test list is not
`[[]]`, it is `[]`). -/
theorem zip_size_zero_cex :
    bruteTests ['a'] 0 ['a'] = [] ∧ bruteTests ['a'] 0 ['a'] ≠ [([] : List Char)] := by
  have h : bruteTests ['a'] 0 ['a'] = [] := by
    rw [bruteTests, if_pos (by decide : 0 < byteLen ['a'])]
  exact ⟨h, by rw [h]; simp⟩

/-- C9 amended: when the target size is 0, each worker's prefix (one
character, at least one byte) already exceeds the size, so the worker
performs zero checksum tests, leaves the bucket mapping unchanged, and the
run completes without error. -/
theorem zip_size_zero_spec :
    ∀ (alphabet : List Char) (c : Char) (m : SMap),
      bruteTests alphabet 0 [c] = [] ∧ zipBrute alphabet 0 c m = m := by
  intro alphabet c m
  have h : bruteTests alphabet 0 [c] = [] := by
    rw [bruteTests, if_pos (byteLen_cons_pos c [])]
  exact ⟨h, by rw [zipBrute, h]; rfl⟩

/-! ## Bucket index lemmas -/

theorem newBuckets_congr (size : Nat) (l : List ZEntry) :
    ∀ s₁ s₂ : List Nat, (∀ x, x ∈ s₁ ↔ x ∈ s₂) →
      newBuckets size s₁ l = newBuckets size s₂ l := by
  induction l with
  | nil => intro s₁ s₂ h; rfl
  | cons e rest ih =>
    intro s₁ s₂ h
    rw [newBuckets, newBuckets]
    by_cases hq : e.2.2 = size ∧ e.2.1 ∉ s₁
    · rw [if_pos hq, if_pos ⟨hq.1, fun hc => hq.2 ((h e.2.1).mpr hc)⟩]
      congr 1
      apply ih
      intro x
      simp [h x]
    · rw [if_neg hq, if_neg (fun hc => hq ⟨hc.1, fun hm => hc.2 ((h e.2.1).mp hm)⟩)]
      exact ih s₁ s₂ h

theorem foldl_bucketStep (size : Nat) (entries : List ZEntry) :
    ∀ m : SMap,
      entries.foldl (bucketStep size) m = m ++ newBuckets size (m.map Prod.fst) entries := by
  induction entries with
  | nil => intro m; simp [newBuckets]
  | cons e rest ih =>
    intro m
    rw [List.foldl_cons, ih (bucketStep size m e), newBuckets]
    by_cases hsz : e.2.2 = size
    · by_cases hin : e.2.1 ∈ m.map Prod.fst
      · have hany : m.any (fun b => b.1 = e.2.1) = true := by
          rw [List.any_eq_true]
          obtain ⟨b, hb, hb1⟩ := List.mem_map.mp hin
          exact ⟨b, hb, by simp [hb1]⟩
        rw [bucketStep, if_pos hsz, if_pos hany, if_neg (fun hq => hq.2 hin)]
      · have hany : ¬ m.any (fun b => b.1 = e.2.1) = true := by
          rw [List.any_eq_true]
          rintro ⟨b, hb, hb1⟩
          rw [decide_eq_true_eq] at hb1
          exact hin (List.mem_map.mpr ⟨b, hb, hb1⟩)
        rw [bucketStep, if_pos hsz, if_neg hany, if_pos ⟨hsz, hin⟩]
        have hcongr : newBuckets size
            ((m ++ [(e.2.1, e.1, ([] : List (List Char)))]).map Prod.fst) rest
            = newBuckets size (e.2.1 :: m.map Prod.fst) rest := by
          apply newBuckets_congr
          intro x
          simp only [List.map_append, List.mem_append, List.map_cons, List.map_nil,
            List.mem_singleton, List.mem_cons]
          tauto
        rw [hcongr, List.append_assoc]
        rfl
    · rw [bucketStep, if_neg hsz, if_neg (fun hq => hsz hq.1)]

theorem mem_newBuckets (size : Nat) (l : List ZEntry) :
    ∀ (seen : List Nat) (k : Nat) (nm : String) (pts : List (List Char)),
      (k, nm, pts) ∈ newBuckets size seen l ↔
        pts = [] ∧ k ∉ seen ∧
          (l.find? (fun q => q.2.2 == size && q.2.1 == k)).map Prod.fst = some nm := by
  induction l with
  | nil =>
    intro seen k nm pts
    simp [newBuckets]
  | cons e rest ih =>
    intro seen k nm pts
    rw [newBuckets]
    by_cases hq : e.2.2 = size ∧ e.2.1 ∉ seen
    · rw [if_pos hq, List.mem_cons, ih]
      by_cases hk : e.2.1 = k
      · have hpe : (e.2.2 == size && e.2.1 == k) = true := by simp [hq.1, hk]
        rw [List.find?_cons_of_pos rest hpe]
        simp only [Option.map_some', Option.some.injEq, Prod.mk.injEq]
        constructor
        · rintro (⟨h1, h2, h3⟩ | ⟨h1, h2, h3⟩)
          · exact ⟨h3.symm ▸ rfl, h1 ▸ hq.2, h2.symm⟩
          · exact absurd (List.mem_cons.mpr (Or.inl hk.symm)) h2
        · rintro ⟨h1, h2, h3⟩
          exact Or.inl ⟨hk.symm, h3.symm, h1⟩
      · have hpe : ¬ (e.2.2 == size && e.2.1 == k) = true := by simp [hk]
        rw [List.find?_cons_of_neg rest hpe]
        constructor
        · rintro (heq | ⟨h1, h2, h3⟩)
          · exact absurd (congrArg Prod.fst heq).symm hk
          · exact ⟨h1, fun hc => h2 (List.mem_cons_of_mem e.2.1 hc), h3⟩
        · rintro ⟨h1, h2, h3⟩
          refine Or.inr ⟨h1, ?_, h3⟩
          intro hc
          rcases List.mem_cons.mp hc with hc | hc
          · exact hk hc.symm
          · exact h2 hc
    · rw [if_neg hq, ih]
      by_cases hsz : e.2.2 = size
      · have hseen : e.2.1 ∈ seen := by
          by_contra hc
          exact hq ⟨hsz, hc⟩
        by_cases hk : e.2.1 = k
        · have hpe : (e.2.2 == size && e.2.1 == k) = true := by simp [hsz, hk]
          rw [List.find?_cons_of_pos rest hpe]
          constructor
          · rintro ⟨h1, h2, h3⟩
            exact absurd (hk ▸ hseen) h2
          · rintro ⟨h1, h2, h3⟩
            exact absurd (hk ▸ hseen) h2
        · have hpe : ¬ (e.2.2 == size && e.2.1 == k) = true := by simp [hk]
          rw [List.find?_cons_of_neg rest hpe]
      · have hpe : ¬ (e.2.2 == size && e.2.1 == k) = true := by simp [hsz]
        rw [List.find?_cons_of_neg rest hpe]

theorem newBuckets_keys (size : Nat) (l : List ZEntry) :
    ∀ seen : List Nat,
      ((newBuckets size seen l).map Prod.fst).Nodup ∧
      ∀ k ∈ (newBuckets size seen l).map Prod.fst, k ∉ seen := by
  induction l with
  | nil => intro seen; simp [newBuckets]
  | cons e rest ih =>
    intro seen
    rw [newBuckets]
    by_cases hq : e.2.2 = size ∧ e.2.1 ∉ seen
    · rw [if_pos hq]
      obtain ⟨ih1, ih2⟩ := ih (e.2.1 :: seen)
      simp only [List.map_cons]
      constructor
      · rw [List.nodup_cons]
        refine ⟨fun hmem => ih2 e.2.1 hmem (List.mem_cons_self e.2.1 seen), ih1⟩
      · intro k hk
        rcases List.mem_cons.mp hk with rfl | hk
        · exact hq.2
        · exact fun hc => ih2 k hk (List.mem_cons_of_mem e.2.1 hc)
    · rw [if_neg hq]
      exact ih seen

/-- C6: building the bucket index from the archive metadata keeps exactly
one bucket per distinct checksum value among the entries whose stored
uncompressed size equals the requested size (the keys are duplicate-free),
each bucket labelled by the name of the first entry of that size bearing
its checksum and initialised with an empty match list; entries repeating
an already-seen checksum create no bucket and leave the label unchanged
(membership is fully determined by the first qualifying entry). -/
theorem init_buckets_spec (entries : List ZEntry) (size : Nat) :
    ((init_buckets entries size).map Prod.fst).Nodup ∧
    ∀ (k : Nat) (nm : String) (pts : List (List Char)),
      (k, nm, pts) ∈ init_buckets entries size ↔
        pts = [] ∧
        (entries.find? (fun q => q.2.2 == size && q.2.1 == k)).map Prod.fst = some nm := by
  have h0 : init_buckets entries size = newBuckets size [] entries := by
    rw [init_buckets, foldl_bucketStep]
    rfl
  rw [h0]
  refine ⟨(newBuckets_keys size entries []).1, ?_⟩
  intro k nm pts
  rw [mem_newBuckets]
  simp

/-! ## Result assembly lemmas -/

theorem btInsert_perm (l : List BEntry) (e : BEntry)
    (h : e.1 ∉ l.map Prod.fst) :
    List.Perm (btInsert l e) (e :: l) := by
  induction l with
  | nil => exact List.Perm.refl _
  | cons x xs ih =>
    rw [btInsert]
    by_cases h1 : e.1 < x.1
    · rw [if_pos h1]
    · have hne : e.1 ≠ x.1 := fun hc => h (by simp [hc])
      rw [if_neg h1, if_neg hne]
      have hxs : e.1 ∉ xs.map Prod.fst := fun hc => h (by simp [hc])
      exact ((ih hxs).cons x).trans (List.Perm.swap e x xs)

theorem btInsert_sorted (l : List BEntry) (e : BEntry)
    (hs : l.Pairwise (fun a b => a.1 < b.1)) (h : e.1 ∉ l.map Prod.fst) :
    (btInsert l e).Pairwise (fun a b => a.1 < b.1) := by
  induction l with
  | nil => simp [btInsert]
  | cons x xs ih =>
    rw [List.pairwise_cons] at hs
    obtain ⟨hx, hxs⟩ := hs
    have hne : e.1 ≠ x.1 := fun hc => h (by simp [hc])
    have hfresh : e.1 ∉ xs.map Prod.fst := fun hc => h (by simp [hc])
    rw [btInsert]
    by_cases h1 : e.1 < x.1
    · rw [if_pos h1, List.pairwise_cons]
      refine ⟨?_, List.pairwise_cons.mpr ⟨hx, hxs⟩⟩
      intro y hy
      rcases List.mem_cons.mp hy with rfl | hy
      · exact h1
      · exact h1.trans (hx y hy)
    · rw [if_neg h1, if_neg hne, List.pairwise_cons]
      constructor
      · intro y hy
        rcases List.mem_cons.mp ((btInsert_perm xs e hfresh).mem_iff.mp hy) with heq | hy
        · rw [heq]
          rcases lt_trichotomy e.1 x.1 with hlt | heq2 | hgt
          · exact absurd hlt h1
          · exact absurd heq2 hne
          · exact hgt
        · exact hx y hy
      · exact ih hxs hfresh

theorem foldl_btInsert_sorted_perm (l : List BEntry) :
    ∀ acc : List BEntry,
      acc.Pairwise (fun a b => a.1 < b.1) →
      (acc.map Prod.fst ++ l.map Prod.fst).Nodup →
      (l.foldl btInsert acc).Pairwise (fun a b => a.1 < b.1) ∧
      List.Perm (l.foldl btInsert acc) (acc ++ l) := by
  induction l with
  | nil =>
    intro acc hs hn
    exact ⟨hs, by simp⟩
  | cons e rest ih =>
    intro acc hs hn
    rw [List.foldl_cons]
    have hfresh : e.1 ∉ acc.map Prod.fst := by
      intro hc
      exact (List.nodup_append.mp hn).2.2 hc (by simp)
    have hkeysperm : List.Perm ((btInsert acc e).map Prod.fst ++ rest.map Prod.fst)
        (acc.map Prod.fst ++ (e.1 :: rest.map Prod.fst)) := by
      refine (((btInsert_perm acc e hfresh).map Prod.fst).append_right _).trans ?_
      exact List.perm_middle.symm
    have hn' : ((btInsert acc e).map Prod.fst ++ rest.map Prod.fst).Nodup :=
      hkeysperm.symm.nodup (by simpa using hn)
    obtain ⟨ih1, ih2⟩ := ih (btInsert acc e) (btInsert_sorted acc e hs hfresh) hn'
    refine ⟨ih1, ?_⟩
    refine ih2.trans ?_
    refine (((btInsert_perm acc e hfresh)).append_right rest).trans ?_
    exact List.perm_middle.symm

theorem sorted_perm_eq (l₁ l₂ : List BEntry)
    (h : List.Perm l₁ l₂)
    (h₁ : l₁.Pairwise (fun a b => a.1 < b.1))
    (h₂ : l₂.Pairwise (fun a b => a.1 < b.1)) : l₁ = l₂ := by
  haveI : IsAntisymm BEntry (fun a b => a.1 < b.1) :=
    ⟨fun a b hab hba => absurd hba (lt_asymm hab)⟩
  exact List.eq_of_perm_of_sorted h h₁ h₂

theorem assembleSorted_sorted_perm (m : SMap)
    (h : (m.map fun e => e.2.1).Nodup) :
    (assembleSorted m).Pairwise (fun a b => a.1 < b.1) ∧
    List.Perm (assembleSorted m) (m.map fun e => (e.2.1, e.1, e.2.2)) := by
  have hkeys : (([] : List BEntry).map Prod.fst ++
      ((m.map fun e => (e.2.1, e.1, e.2.2)).map Prod.fst)).Nodup := by
    simpa [List.map_map, Function.comp_def] using h
  have := foldl_btInsert_sorted_perm (m.map fun e => (e.2.1, e.1, e.2.2)) []
    (by simp) hkeys
  simpa [assembleSorted] using this

/-- C7 counterexample: two buckets sharing the label "a". The label-keyed
`BTreeMap` silently keeps only the last-inserted bucket, so the output is
not the concatenation of all buckets' match lists, and it depends on the
iteration order of the checksum-keyed hash map (which is arbitrary across
runs for the same mapping): the two presentations of the same mapping
assemble to different strings. -/
theorem assemble_dup_label_cex :
    assemble [(1, "a", [['x']]), (2, "a", [['y']])] ≠
      assemble [(2, "a", [['y']]), (1, "a", [['x']])] := by
  have hlt : ¬ ("a" : String) < "a" := lt_irrefl _
  have e2 : btInsert [("a", 1, [['x']])] ("a", 2, [['y']]) = [("a", 2, [['y']])] := by
    rw [btInsert, if_neg hlt, if_pos rfl]
  have e4 : btInsert [("a", 2, [['y']])] ("a", 1, [['x']]) = [("a", 1, [['x']])] := by
    rw [btInsert, if_neg hlt, if_pos rfl]
  have h1 : assemble [(1, "a", [['x']]), (2, "a", [['y']])] = ['y'] := by
    rw [assemble, assembleSorted]
    simp only [List.map_cons, List.map_nil, List.foldl_cons, List.foldl_nil]
    rw [show btInsert [] ("a", 1, [['x']]) = [("a", 1, [['x']])] from rfl, e2]
    rfl
  have h2 : assemble [(2, "a", [['y']]), (1, "a", [['x']])] = ['x'] := by
    rw [assemble, assembleSorted]
    simp only [List.map_cons, List.map_nil, List.foldl_cons, List.foldl_nil]
    rw [show btInsert [] ("a", 2, [['y']]) = [("a", 2, [['y']])] from rfl, e4]
    rfl
  rw [h1, h2]
  simp

/-- C7 amended: for a completed bucket mapping whose labels are pairwise
distinct (the code guarantees this only when archive entry names are
unique), `assemble` concatenates the buckets' match lists with the buckets
in strictly increasing label order — the assembled sequence is exactly the
flattening of the unique label-sorted permutation of the buckets, so
buckets with empty match lists contribute nothing and each bucket's
matches appear in append order — and the result is the same for every
iteration order of the same mapping. -/
theorem assemble_spec (m : SMap) (h : (m.map fun e => e.2.1).Nodup) :
    ∃ l : List BEntry,
      List.Perm l (m.map fun e => (e.2.1, e.1, e.2.2)) ∧
      l.Pairwise (fun a b => a.1 < b.1) ∧
      assemble m = ((l.map fun e => e.2.2).flatten).flatten ∧
      ∀ m' : SMap, List.Perm m m' → assemble m = assemble m' := by
  obtain ⟨hs, hp⟩ := assembleSorted_sorted_perm m h
  refine ⟨assembleSorted m, hp, hs, rfl, ?_⟩
  intro m' hmm
  have h' : (m'.map fun e => e.2.1).Nodup := (hmm.map fun e => e.2.1).nodup h
  obtain ⟨hs', hp'⟩ := assembleSorted_sorted_perm m' h'
  have heq : assembleSorted m = assembleSorted m' :=
    sorted_perm_eq _ _
      (hp.trans ((hmm.map fun e => (e.2.1, e.1, e.2.2)).trans hp'.symm)) hs hs'
  rw [assemble, assemble, heq]

/-- C7 witness: two buckets with distinct labels "a" and "b", presented
out of label order. -/
theorem assemble_witness :
    ∃ l : List BEntry,
      List.Perm l ([(2, "b", [['y']]), (1, "a", [['x'], ['z']])].map
        fun e => (e.2.1, e.1, e.2.2)) ∧
      l.Pairwise (fun a b => a.1 < b.1) ∧
      assemble [(2, "b", [['y']]), (1, "a", [['x'], ['z']])] =
        ((l.map fun e => e.2.2).flatten).flatten ∧
      ∀ m' : SMap, List.Perm [(2, "b", [['y']]), (1, "a", [['x'], ['z']])] m' →
        assemble [(2, "b", [['y']]), (1, "a", [['x'], ['z']])] = assemble m' :=
  assemble_spec [(2, "b", [['y']]), (1, "a", [['x'], ['z']])] (by decide)

end Quas
